import Mathlib

/-!
Verification of the customer segmentation and RFM scoring pipeline
(source: 03_repeat_vs_onetime_buyers.py) against its specification.

The pipeline is embedded shallowly:
* a transaction row becomes the structure Transaction,
* the pandas groupby aggregation becomes customerOrders,
* the segment classifiers classify_customer and the CustomerType lambda
  become classify_customer and customerTypeOf,
* pandas rank with method first becomes rankFirst,
* pandas qcut with q = 5 on the ranks becomes qcutBucket (exact rational
  quantile edges; qcut fails when the bin edges are not unique, which for
  ranked data happens exactly when the population has fewer than two
  members, hence the Option-returning variants),
* the RFM categorizer becomes categorize_rfm,
* the monthly-trend buyer type becomes buyerTypeOf,
* the purchase-frequency computation becomes purchaseFrequencyDaysPerOrder.

Timestamps are modelled as natural numbers counting minutes; the pandas
timedelta .dt.days accessor becomes division by minutesPerDay.
-/

namespace Ecom

/-- One line item of the cleaned transaction table. -/
structure Transaction where
  customerId : ℕ
  invoice : String
  totalAmount : ℚ
  invoiceDate : ℕ
deriving DecidableEq

/-- Minutes in a day; timestamps are in minutes, day differences are whole days. -/
def minutesPerDay : ℕ := 1440

/-- Whole-day difference between two timestamps, as pandas .dt.days computes it. -/
def daysBetween (later earlier : ℕ) : ℕ :=
  (later - earlier) / minutesPerDay

/-- Segment label from the order count, mirroring classify_customer in the source. -/
def classify_customer (order_count : ℕ) : String :=
  if order_count = 1 then "One-Time Buyer"
  else if order_count = 2 then "Two-Time Buyer"
  else if order_count ≤ 5 then "Occasional Buyer (3-5 orders)"
  else if order_count ≤ 10 then "Regular Buyer (6-10 orders)"
  else "Loyal Customer (10+ orders)"

/-- Binary customer type, mirroring the CustomerType lambda in the source. -/
def customerTypeOf (order_count : ℕ) : String :=
  if order_count = 1 then "One-Time Buyer" else "Repeat Buyer"

/-- Qualitative RFM segment, mirroring categorize_rfm in the source: the
conditions are evaluated top to bottom and the first match wins. -/
def categorize_rfm (r f m : ℕ) : String :=
  if 4 ≤ f ∧ 4 ≤ m then "Champions"
  else if 3 ≤ f ∧ 3 ≤ m then "Loyal Customers"
  else if 4 ≤ r then "Potential Loyalists"
  else if 3 ≤ r then "At Risk"
  else "Lost"

/-- C1: the qualitative RFM segment is decided by evaluating the five rules in
their fixed priority order, first match wins: F and M at least 4 give
Champions; otherwise F and M at least 3 give Loyal Customers; otherwise R at
least 4 gives Potential Loyalists; otherwise R at least 3 gives At Risk;
otherwise Lost.  In particular a customer with R = 1, F = 5, M = 5 is a
Champion and is never Lost. -/
theorem categorize_rfm_priority_order :
    (∀ r f m : ℕ,
      (4 ≤ f → 4 ≤ m → categorize_rfm r f m = "Champions") ∧
      (¬(4 ≤ f ∧ 4 ≤ m) → 3 ≤ f → 3 ≤ m → categorize_rfm r f m = "Loyal Customers") ∧
      (¬(4 ≤ f ∧ 4 ≤ m) → ¬(3 ≤ f ∧ 3 ≤ m) → 4 ≤ r →
        categorize_rfm r f m = "Potential Loyalists") ∧
      (¬(4 ≤ f ∧ 4 ≤ m) → ¬(3 ≤ f ∧ 3 ≤ m) → r < 4 → 3 ≤ r →
        categorize_rfm r f m = "At Risk") ∧
      (¬(4 ≤ f ∧ 4 ≤ m) → ¬(3 ≤ f ∧ 3 ≤ m) → r < 3 →
        categorize_rfm r f m = "Lost")) ∧
    categorize_rfm 1 5 5 = "Champions" ∧ categorize_rfm 1 5 5 ≠ "Lost" := by
  refine ⟨fun r f m => ⟨?_, ?_, ?_, ?_, ?_⟩, by decide, by decide⟩ <;>
    · intros
      unfold categorize_rfm
      split_ifs <;> first | rfl | omega

/-- C1 witness: the priority order evaluated at concrete scores. -/
theorem categorize_rfm_priority_order_witness :
    categorize_rfm 5 1 1 = "Potential Loyalists" :=
  (categorize_rfm_priority_order.1 5 1 1).2.2.1 (by decide) (by decide) (by decide)

/-- C2: classify_customer is a total function of the order count landing in one
of the five labels, with the stated bucket boundaries (order count 5 is
Occasional, order count 6 is Regular, above 10 is Loyal); independently the
binary type is One-Time exactly on order count 1 and Repeat otherwise, and the
ten-customer population with order counts 1,1,2,3,4,6,7,11,12,15 has exactly
two One-Time and eight Repeat customers. -/
theorem classify_customer_buckets :
    (∀ n : ℕ,
      (classify_customer n = "One-Time Buyer" ∨
        classify_customer n = "Two-Time Buyer" ∨
        classify_customer n = "Occasional Buyer (3-5 orders)" ∨
        classify_customer n = "Regular Buyer (6-10 orders)" ∨
        classify_customer n = "Loyal Customer (10+ orders)") ∧
      (n = 1 → classify_customer n = "One-Time Buyer") ∧
      (n = 2 → classify_customer n = "Two-Time Buyer") ∧
      (3 ≤ n → n ≤ 5 → classify_customer n = "Occasional Buyer (3-5 orders)") ∧
      (6 ≤ n → n ≤ 10 → classify_customer n = "Regular Buyer (6-10 orders)") ∧
      (10 < n → classify_customer n = "Loyal Customer (10+ orders)") ∧
      (customerTypeOf n = "One-Time Buyer" ↔ n = 1) ∧
      (n ≠ 1 → customerTypeOf n = "Repeat Buyer")) ∧
    ([1, 1, 2, 3, 4, 6, 7, 11, 12, 15].map customerTypeOf).count "One-Time Buyer" = 2 ∧
    ([1, 1, 2, 3, 4, 6, 7, 11, 12, 15].map customerTypeOf).count "Repeat Buyer" = 8 := by
  refine ⟨fun n => ⟨?_, ?_, ?_, ?_, ?_, ?_, ?_, ?_⟩, by decide, by decide⟩
  · unfold classify_customer
    split_ifs <;> simp
  · intros; unfold classify_customer; split_ifs <;> first | rfl | omega
  · intros; unfold classify_customer; split_ifs <;> first | rfl | omega
  · intros; unfold classify_customer; split_ifs <;> first | rfl | omega
  · intros; unfold classify_customer; split_ifs <;> first | rfl | omega
  · intros; unfold classify_customer; split_ifs <;> first | rfl | omega
  · unfold customerTypeOf
    split_ifs with h
    · simp [h]
    · simp [h]
  · intro h
    unfold customerTypeOf
    split_ifs <;> first | rfl | omega

/-- C2 witness: bucket boundaries evaluated at concrete order counts. -/
theorem classify_customer_buckets_witness :
    classify_customer 5 = "Occasional Buyer (3-5 orders)" ∧
    classify_customer 6 = "Regular Buyer (6-10 orders)" ∧
    customerTypeOf 4 = "Repeat Buyer" :=
  ⟨(classify_customer_buckets.1 5).2.2.2.1 (by decide) (by decide),
   (classify_customer_buckets.1 6).2.2.2.2.1 (by decide) (by decide),
   (classify_customer_buckets.1 4).2.2.2.2.2.2.2 (by decide)⟩

/-- One row of the customer_orders aggregate table: the result of the pandas
groupby on Customer ID with Invoice nunique, InvoiceDate min and max, and
TotalAmount sum, mean and count. -/
structure CustomerAggregate where
  customerId : ℕ
  orderCount : ℕ
  firstPurchase : ℕ
  lastPurchase : ℕ
  totalRevenue : ℚ
  avgTransactionValue : ℚ
  totalTransactions : ℕ
deriving DecidableEq

/-- Transactions of one customer, in original row order. -/
def txnsOf (df : List Transaction) (c : ℕ) : List Transaction :=
  df.filter (fun t => t.customerId == c)

/-- Distinct customer identifiers in order of first appearance, as the pandas
groupby keys. -/
def customerIds (df : List Transaction) : List ℕ :=
  (df.map (fun t => t.customerId)).dedup

/-- Aggregate row of one customer, mirroring the agg dictionary of the source:
Invoice nunique, InvoiceDate min and max, TotalAmount sum, mean and count. -/
def aggregateFor (df : List Transaction) (c : ℕ) : CustomerAggregate :=
  { customerId := c
    orderCount := (((txnsOf df c).map (fun t => t.invoice)).dedup).length
    firstPurchase := (((txnsOf df c).map (fun t => t.invoiceDate)).min?).getD 0
    lastPurchase := (((txnsOf df c).map (fun t => t.invoiceDate)).max?).getD 0
    totalRevenue := ((txnsOf df c).map (fun t => t.totalAmount)).sum
    avgTransactionValue :=
      ((txnsOf df c).map (fun t => t.totalAmount)).sum / ((txnsOf df c).length : ℚ)
    totalTransactions := (txnsOf df c).length }

/-- The full customer_orders table: one aggregate row per distinct customer. -/
def customerOrders (df : List Transaction) : List CustomerAggregate :=
  (customerIds df).map (aggregateFor df)

/-- A customer aggregate row extended with the two segment label columns the
source attaches afterwards. -/
structure LabeledCustomer extends CustomerAggregate where
  customerSegment : String
  customerType : String

/-- Attaching the CustomerSegment and CustomerType columns to the aggregate
table, as the two apply calls of the source do. -/
def attachSegments (rows : List CustomerAggregate) : List LabeledCustomer :=
  rows.map (fun r =>
    { toCustomerAggregate := r
      customerSegment := classify_customer r.orderCount
      customerType := customerTypeOf r.orderCount })

theorem min_getD_spec {l : List ℕ} (h : l ≠ []) :
    l.min?.getD 0 ∈ l ∧ ∀ b ∈ l, l.min?.getD 0 ≤ b := by
  obtain ⟨a, ha⟩ : ∃ a, l.min? = some a := by
    cases hm : l.min? with
    | none => exact absurd (List.min?_eq_none_iff.mp hm) h
    | some a => exact ⟨a, rfl⟩
  have hs := List.min?_eq_some_iff'.mp ha
  rw [ha]
  simpa using hs

theorem max_getD_spec {l : List ℕ} (h : l ≠ []) :
    l.max?.getD 0 ∈ l ∧ ∀ b ∈ l, b ≤ l.max?.getD 0 := by
  obtain ⟨a, ha⟩ : ∃ a, l.max? = some a := by
    cases hm : l.max? with
    | none => exact absurd (List.max?_eq_none_iff.mp hm) h
    | some a => exact ⟨a, rfl⟩
  have hs := List.max?_eq_some_iff'.mp ha
  rw [ha]
  simpa using hs

theorem txnsOf_ne_nil {df : List Transaction} {c : ℕ} {t : Transaction}
    (ht : t ∈ df) (hc : t.customerId = c) : txnsOf df c ≠ [] := by
  have : t ∈ txnsOf df c := by
    unfold txnsOf
    rw [List.mem_filter]
    exact ⟨ht, by simpa using hc⟩
  intro hnil
  rw [hnil] at this
  simp at this

theorem mem_customerIds {df : List Transaction} {c : ℕ} :
    c ∈ customerIds df ↔ ∃ t ∈ df, t.customerId = c := by
  unfold customerIds
  rw [List.mem_dedup, List.mem_map]

/-- C5: for every customer present in the input table, the aggregator produces
exactly one row; its order count is the number of distinct invoice identifiers
of that customer, its total revenue is the sum of the line totals, its mean
transaction value is total revenue divided by the line-item count (not the
order count), and first and last purchase are the minimum and maximum of the
transaction timestamps. -/
theorem customer_aggregator_contract (df : List Transaction) (c : ℕ)
    (hc : ∃ t ∈ df, t.customerId = c) :
    ∃ row ∈ customerOrders df,
      row.customerId = c ∧
      (customerOrders df).countP (fun r => r.customerId == c) = 1 ∧
      row.orderCount = ((txnsOf df c).map (fun t => t.invoice)).toFinset.card ∧
      row.totalRevenue = ((txnsOf df c).map (fun t => t.totalAmount)).sum ∧
      row.totalTransactions = (txnsOf df c).length ∧
      row.avgTransactionValue = row.totalRevenue / ((txnsOf df c).length : ℚ) ∧
      row.firstPurchase ∈ (txnsOf df c).map (fun t => t.invoiceDate) ∧
      row.lastPurchase ∈ (txnsOf df c).map (fun t => t.invoiceDate) ∧
      ∀ t ∈ txnsOf df c,
        row.firstPurchase ≤ t.invoiceDate ∧ t.invoiceDate ≤ row.lastPurchase := by
  obtain ⟨t0, ht0, hct0⟩ := hc
  have hcmem : c ∈ customerIds df := mem_customerIds.mpr ⟨t0, ht0, hct0⟩
  have hne : txnsOf df c ≠ [] := txnsOf_ne_nil ht0 hct0
  have hdne : (txnsOf df c).map (fun t => t.invoiceDate) ≠ [] := by
    simpa using hne
  obtain ⟨hminmem, hminle⟩ := min_getD_spec hdne
  obtain ⟨hmaxmem, hmaxle⟩ := max_getD_spec hdne
  refine ⟨aggregateFor df c, List.mem_map_of_mem _ hcmem, rfl, ?_, ?_, rfl, rfl, rfl,
    hminmem, hmaxmem, ?_⟩
  · unfold customerOrders
    rw [List.countP_map]
    have heq : ((fun r : CustomerAggregate => r.customerId == c) ∘ aggregateFor df) =
        fun x : ℕ => x == c := rfl
    rw [heq]
    have : (customerIds df).countP (fun x : ℕ => x == c) = (customerIds df).count c := rfl
    rw [this]
    exact List.count_eq_one_of_mem (List.nodup_dedup _) hcmem
  · show (((txnsOf df c).map (fun t => t.invoice)).dedup).length = _
    exact (List.card_toFinset _).symm
  · intro t htx
    have hd : t.invoiceDate ∈ (txnsOf df c).map (fun t => t.invoiceDate) :=
      List.mem_map_of_mem _ htx
    exact ⟨hminle _ hd, hmaxle _ hd⟩

/-- C5 witness: the contract evaluated on a concrete two-line-item table. -/
theorem customer_aggregator_contract_witness :
    ∃ row ∈ customerOrders
        [⟨7, "A", 10, 1440⟩, ⟨7, "B", 5, 2880⟩],
      row.customerId = 7 ∧ row.orderCount = 2 ∧ row.totalRevenue = 15 ∧
      row.totalTransactions = 2 ∧ row.firstPurchase = 1440 ∧ row.lastPurchase = 2880 := by
  obtain ⟨row, hmem, hid, -, -, -, -, -, -, -, -⟩ :=
    customer_aggregator_contract [⟨7, "A", 10, 1440⟩, ⟨7, "B", 5, 2880⟩] 7
      ⟨⟨7, "A", 10, 1440⟩, by simp, rfl⟩
  refine ⟨row, hmem, hid, ?_⟩
  have : row = aggregateFor [⟨7, "A", 10, 1440⟩, ⟨7, "B", 5, 2880⟩] 7 := by
    unfold customerOrders at hmem
    obtain ⟨c2, hc2, rfl⟩ := List.mem_map.mp hmem
    have : c2 = 7 := hid
    rw [this]
  rw [this]
  refine ⟨by decide, by norm_num [aggregateFor, txnsOf], by decide, by decide, by decide⟩

/-- C6: every aggregate row has order count at least one and first purchase at
most last purchase, and the downstream labeling step rebuilds a new table
whose aggregate part is unchanged (the aggregate is never mutated). -/
theorem customer_aggregate_invariants (df : List Transaction) :
    (∀ row ∈ customerOrders df,
      1 ≤ row.orderCount ∧ row.firstPurchase ≤ row.lastPurchase) ∧
    (attachSegments (customerOrders df)).map
      (fun l => l.toCustomerAggregate) = customerOrders df := by
  constructor
  · intro row hrow
    obtain ⟨c, hcmem, rfl⟩ := List.mem_map.mp hrow
    obtain ⟨t0, ht0, hct0⟩ := mem_customerIds.mp hcmem
    have hne : txnsOf df c ≠ [] := txnsOf_ne_nil ht0 hct0
    constructor
    · show 1 ≤ (((txnsOf df c).map (fun t => t.invoice)).dedup).length
      have : ((txnsOf df c).map (fun t => t.invoice)).dedup ≠ [] := by
        rw [Ne, List.dedup_eq_nil, List.map_eq_nil_iff]
        exact hne
      exact List.length_pos.mpr this
    · have hdne : (txnsOf df c).map (fun t => t.invoiceDate) ≠ [] := by
        simpa using hne
      obtain ⟨hminmem, -⟩ := min_getD_spec hdne
      obtain ⟨-, hmaxle⟩ := max_getD_spec hdne
      exact hmaxle _ hminmem
  · unfold attachSegments
    rw [List.map_map]
    exact List.map_id _

/-- C6 witness: the invariants on a concrete one-customer table. -/
theorem customer_aggregate_invariants_witness :
    ∀ row ∈ customerOrders [⟨3, "X", 4, 100⟩],
      1 ≤ row.orderCount ∧ row.firstPurchase ≤ row.lastPurchase :=
  (customer_aggregate_invariants [⟨3, "X", 4, 100⟩]).1

/-- C7 counterexample: on an empty input the aggregator silently produces the
zero-row aggregate table instead of failing with a schema error, refuting the
claim that it fails exactly on empty or schema-deficient input. -/
theorem customer_aggregator_empty_silent :
    customerOrders ([] : List Transaction) = [] := rfl

/-- C7 amended: the aggregator never signals an error; it produces a zero-row
table exactly when the input is empty (a missing required column is outside
the typed embedding and surfaces in the source as a runtime key error during
computation, not as a prior schema check). -/
theorem customer_aggregator_total (df : List Transaction) :
    customerOrders df = [] ↔ df = [] := by
  unfold customerOrders customerIds
  rw [List.map_eq_nil_iff, List.dedup_eq_nil, List.map_eq_nil_iff]

/-- Strict key order used by pandas rank with method first, ascending: rows
are compared by value, ties are broken by original row position. -/
def keyLt {α : Type} [LinearOrder α] (q p : ℕ × α) : Prop :=
  q.2 < p.2 ∨ (q.2 = p.2 ∧ q.1 < p.1)

instance {α : Type} [LinearOrder α] (q p : ℕ × α) : Decidable (keyLt q p) := by
  unfold keyLt
  exact inferInstance

/-- Rank of one enumerated row among all rows: one plus the number of rows
strictly before it in the key order. -/
def rankOf {α : Type} [LinearOrder α] (ps : List (ℕ × α)) (p : ℕ × α) : ℕ :=
  1 + ps.countP (fun q => decide (keyLt q p))

/-- pandas rank with method first, ascending: row i receives one plus the
number of rows with smaller value, or with equal value and smaller position. -/
def rankFirst {α : Type} [LinearOrder α] (xs : List α) : List ℕ :=
  xs.enum.map (rankOf xs.enum)

theorem keyLt_irrefl {α : Type} [LinearOrder α] (p : ℕ × α) : ¬ keyLt p p := by
  unfold keyLt
  simp

theorem keyLt_trans {α : Type} [LinearOrder α] {a b c : ℕ × α}
    (h1 : keyLt a b) (h2 : keyLt b c) : keyLt a c := by
  unfold keyLt at *
  rcases h1 with h1 | ⟨h1e, h1i⟩ <;> rcases h2 with h2 | ⟨h2e, h2i⟩
  · exact Or.inl (lt_trans h1 h2)
  · exact Or.inl (h2e ▸ h1)
  · exact Or.inl (h1e ▸ h2)
  · exact Or.inr ⟨h1e.trans h2e, lt_trans h1i h2i⟩

theorem keyLt_of_fst_ne {α : Type} [LinearOrder α] {p q : ℕ × α} (h : p.1 ≠ q.1) :
    keyLt p q ∨ keyLt q p := by
  unfold keyLt
  rcases lt_trichotomy p.2 q.2 with hv | hv | hv
  · exact Or.inl (Or.inl hv)
  · rcases Nat.lt_or_ge p.1 q.1 with hi | hi
    · exact Or.inl (Or.inr ⟨hv, hi⟩)
    · exact Or.inr (Or.inr ⟨hv.symm, lt_of_le_of_ne hi (Ne.symm h)⟩)
  · exact Or.inr (Or.inl hv)

theorem enum_nodup {α : Type} (xs : List α) : xs.enum.Nodup := by
  have h : (xs.enum.map Prod.fst).Nodup := by
    rw [List.enum_eq_enumFrom, List.enumFrom_map_fst]
    exact List.nodup_range' 0 xs.length
  exact h.of_map _

theorem enum_fst_injOn {α : Type} {xs : List α} {p q : ℕ × α}
    (hp : p ∈ xs.enum) (hq : q ∈ xs.enum) (h : p.1 = q.1) : p = q := by
  have hnd : (xs.enum.map Prod.fst).Nodup := by
    rw [List.enum_eq_enumFrom, List.enumFrom_map_fst]
    exact List.nodup_range' 0 xs.length
  exact (List.nodup_map_iff_inj_on (enum_nodup xs)).mp hnd p hp q hq h

theorem rankOf_lt_rankOf {α : Type} [LinearOrder α] {ps : List (ℕ × α)}
    (hnd : ps.Nodup) {p q : ℕ × α} (hp : p ∈ ps) (hq : q ∈ ps) (hlt : keyLt p q) :
    rankOf ps p < rankOf ps q := by
  unfold rankOf
  have hlen : (ps.filter (fun r => decide (keyLt r p))).length <
      (ps.filter (fun r => decide (keyLt r q))).length := by
    have hsub : (p :: ps.filter (fun r => decide (keyLt r p))) ⊆
        ps.filter (fun r => decide (keyLt r q)) := by
      intro r hr
      rcases List.mem_cons.mp hr with rfl | hr
      · rw [List.mem_filter]
        exact ⟨hp, by simpa using hlt⟩
      · rw [List.mem_filter] at hr ⊢
        refine ⟨hr.1, ?_⟩
        have : keyLt r p := by simpa using hr.2
        simpa using keyLt_trans this hlt
    have hpnot : p ∉ ps.filter (fun r => decide (keyLt r p)) := by
      rw [List.mem_filter]
      rintro ⟨-, h⟩
      exact keyLt_irrefl p (by simpa using h)
    have hndc : (p :: ps.filter (fun r => decide (keyLt r p))).Nodup :=
      List.nodup_cons.mpr ⟨hpnot, hnd.filter _⟩
    have := (List.subperm_of_subset hndc hsub).length_le
    simpa using this
  rw [List.countP_eq_length_filter, List.countP_eq_length_filter]
  omega

theorem rankOf_le_length {α : Type} [LinearOrder α] {ps : List (ℕ × α)}
    (hnd : ps.Nodup) {p : ℕ × α} (hp : p ∈ ps) : rankOf ps p ≤ ps.length := by
  unfold rankOf
  have hpnot : p ∉ ps.filter (fun r => decide (keyLt r p)) := by
    rw [List.mem_filter]
    rintro ⟨-, h⟩
    exact keyLt_irrefl p (by simpa using h)
  have hndc : (p :: ps.filter (fun r => decide (keyLt r p))).Nodup :=
    List.nodup_cons.mpr ⟨hpnot, hnd.filter _⟩
  have hsub : (p :: ps.filter (fun r => decide (keyLt r p))) ⊆ ps := by
    intro r hr
    rcases List.mem_cons.mp hr with rfl | hr
    · exact hp
    · exact (List.mem_filter.mp hr).1
  have := (List.subperm_of_subset hndc hsub).length_le
  rw [List.countP_eq_length_filter]
  simp only [List.length_cons] at this
  omega

/-- The ranks produced by method-first ranking are a permutation of 1..n. -/
theorem rankFirst_perm {α : Type} [LinearOrder α] (xs : List α) :
    (rankFirst xs).Perm (List.range' 1 xs.length) := by
  have hnd : xs.enum.Nodup := enum_nodup xs
  have hinj : ∀ p ∈ xs.enum, ∀ q ∈ xs.enum,
      rankOf xs.enum p = rankOf xs.enum q → p = q := by
    intro p hp q hq hpq
    by_contra hne
    have hfst : p.1 ≠ q.1 := fun h => hne (enum_fst_injOn hp hq h)
    rcases keyLt_of_fst_ne hfst with h | h
    · exact absurd hpq (Nat.ne_of_lt (rankOf_lt_rankOf hnd hp hq h))
    · exact absurd hpq.symm (Nat.ne_of_lt (rankOf_lt_rankOf hnd hq hp h))
  have hndr : (rankFirst xs).Nodup := (hnd.map_on hinj)
  have hsub : rankFirst xs ⊆ List.range' 1 xs.length := by
    intro r hr
    obtain ⟨p, hp, rfl⟩ := List.mem_map.mp hr
    have h1 : 1 ≤ rankOf xs.enum p := Nat.le_add_right 1 _
    have h2 : rankOf xs.enum p ≤ xs.length := by
      have := rankOf_le_length hnd hp
      rwa [List.enum_length] at this
    rw [List.mem_range']
    exact ⟨rankOf xs.enum p - 1, by omega, by omega⟩
  have hlen : (List.range' 1 xs.length).length ≤ (rankFirst xs).length := by
    rw [List.length_range', rankFirst, List.length_map, List.enum_length]
  exact (List.subperm_of_subset hndr hsub).perm_of_length_le hlen

/-- Quantile bucket (1 to 5) that pandas qcut with q = 5 assigns to rank r in
a ranked population of size n: the bucket edges are the rational quantiles
1 + (n - 1) * j / 5, and rank r falls in the least bucket j with
r ≤ 1 + (n - 1) * j / 5, i.e. the ceiling of 5 * (r - 1) / (n - 1); rank 1
falls in bucket 1.  Meaningful for n at least 2, where the edges are
distinct; qcut raises a duplicate-bin-edges error otherwise. -/
def qcutBucket (n r : ℕ) : ℕ :=
  if r ≤ 1 then 1 else (5 * (r - 1) + (n - 2)) / (n - 1)

/-- Frequency and monetary scores: qcut labels 1,2,3,4,5 over the
method-first ranks of the dimension values. -/
def fScoreList {α : Type} [LinearOrder α] (xs : List α) : List ℕ :=
  (rankFirst xs).map (qcutBucket xs.length)

/-- Recency scores: qcut labels 5,4,3,2,1 over the method-first ranks of the
recency values, i.e. six minus the bucket. -/
def rScoreList {α : Type} [LinearOrder α] (xs : List α) : List ℕ :=
  (rankFirst xs).map (fun r => 6 - qcutBucket xs.length r)

/-- Frequency and monetary scoring as the source runs it: qcut fails with a
duplicate-bin-edges error exactly when the ranked population has fewer than
two members. -/
def fScoreList? {α : Type} [LinearOrder α] (xs : List α) : Option (List ℕ) :=
  if 2 ≤ xs.length then some (fScoreList xs) else none

/-- Recency scoring as the source runs it; same failure condition as
fScoreList?. -/
def rScoreList? {α : Type} [LinearOrder α] (xs : List α) : Option (List ℕ) :=
  if 2 ≤ xs.length then some (rScoreList xs) else none

theorem nat_div_eq_iff {x d b : ℕ} (hd : 0 < d) :
    x / d = b ↔ b * d ≤ x ∧ x < b * d + d := by
  have h1 : b ≤ x / d ↔ b * d ≤ x := Nat.le_div_iff_mul_le hd
  have h2 : x / d < b + 1 ↔ x < (b + 1) * d := Nat.div_lt_iff_lt_mul hd
  have e : (b + 1) * d = b * d + d := by ring
  rw [e] at h2
  omega

theorem qcutBucket_bounds {n r : ℕ} (hn : 2 ≤ n) (h1 : 1 ≤ r) (h2 : r ≤ n) :
    1 ≤ qcutBucket n r ∧ qcutBucket n r ≤ 5 := by
  unfold qcutBucket
  split_ifs with h
  · omega
  · have hd : 0 < n - 1 := by omega
    constructor
    · rw [Nat.one_le_div_iff hd]
      omega
    · have h6 : (5 * (r - 1) + (n - 2)) / (n - 1) < 6 := by
        rw [Nat.div_lt_iff_lt_mul hd]
        omega
      omega

theorem countP_range_interval (lo hi : ℕ) : ∀ n : ℕ,
    (List.range n).countP (fun i => decide (lo ≤ i ∧ i < hi)) = min hi n - min lo n := by
  intro n
  induction n with
  | zero => simp
  | succ k ih =>
    rw [List.range_succ, List.countP_append]
    simp only [List.countP_cons, List.countP_nil]
    rw [ih]
    by_cases h : lo ≤ k ∧ k < hi
    · rw [decide_eq_true h]
      norm_num
      omega
    · rw [decide_eq_false h]
      norm_num
      omega

theorem count_scoreList {α : Type} [LinearOrder α] (xs : List α) (g : ℕ → ℕ) (b : ℕ) :
    ((rankFirst xs).map g).count b
      = (List.range xs.length).countP (fun i => g (1 + i) == b) := by
  have hp : ((rankFirst xs).map g).Perm ((List.range' 1 xs.length).map g) :=
    (rankFirst_perm xs).map g
  rw [hp.count_eq, List.range'_eq_map_range, List.map_map, List.count_eq_countP,
    List.countP_map]
  rfl

theorem countP_qcutBucket_one {n : ℕ} (hn : 2 ≤ n) :
    (List.range n).countP (fun i => qcutBucket n (1 + i) == 1) = (n - 1) / 5 + 1 := by
  have hd : 0 < n - 1 := by omega
  have hcg : (List.range n).countP (fun i => qcutBucket n (1 + i) == 1) =
      (List.range n).countP (fun i => decide (0 ≤ i ∧ i < (n - 1) / 5 + 1)) := by
    apply List.countP_congr
    intro i hi
    have hin : i < n := List.mem_range.mp hi
    simp only [beq_iff_eq, decide_eq_true_eq]
    rcases Nat.eq_zero_or_pos i with rfl | hipos
    · have : qcutBucket n 1 = 1 := rfl
      simp only [Nat.add_zero, this]
      have h5 : 0 < (n - 1) / 5 + 1 := by omega
      constructor <;> intro <;> first | omega | trivial
    · have hni : ¬ (1 + i ≤ 1) := by omega
      unfold qcutBucket
      rw [if_neg hni]
      have he : 5 * (1 + i - 1) + (n - 2) = 5 * i + (n - 2) := by omega
      rw [he, nat_div_eq_iff hd]
      have h1m : 1 * (n - 1) = n - 1 := by ring
      rw [h1m]
      have hfive : 5 * i ≤ n - 1 ↔ i ≤ (n - 1) / 5 := by
        rw [Nat.le_div_iff_mul_le (by omega : 0 < 5)]
        omega
      omega
  rw [hcg, countP_range_interval]
  have hle : (n - 1) / 5 + 1 ≤ n := by
    have := Nat.div_le_self (n - 1) 5
    omega
  omega

theorem countP_qcutBucket_ge_two {n : ℕ} (hn : 2 ≤ n) (b : ℕ) (hb : 2 ≤ b) (hb5 : b ≤ 5) :
    (List.range n).countP (fun i => qcutBucket n (1 + i) == b) =
      b * (n - 1) / 5 - (b - 1) * (n - 1) / 5 + 1 - 1 := by
  have hd : 0 < n - 1 := by omega
  have hcg : (List.range n).countP (fun i => qcutBucket n (1 + i) == b) =
      (List.range n).countP
        (fun i => decide ((b - 1) * (n - 1) / 5 + 1 ≤ i ∧ i < b * (n - 1) / 5 + 1)) := by
    apply List.countP_congr
    intro i hi
    have hin : i < n := List.mem_range.mp hi
    simp only [beq_iff_eq, decide_eq_true_eq]
    have e1 : (b - 1) * (n - 1) + (n - 1) = b * (n - 1) := by
      have : (b - 1) + 1 = b := by omega
      calc (b - 1) * (n - 1) + (n - 1) = ((b - 1) + 1) * (n - 1) := by ring
        _ = b * (n - 1) := by rw [this]
    have elow : (b - 1) * (n - 1) < 5 * i ↔ (b - 1) * (n - 1) / 5 + 1 ≤ i := by
      constructor <;> intro h
      · have := @Nat.div_le_div_right _ _ 5 (Nat.le_of_lt h)
        rw [Nat.mul_div_cancel_left i (by omega : 0 < 5)] at this
        rcases Nat.lt_or_ge ((b - 1) * (n - 1) / 5 + 1) (i + 1) with hlt | hge
        · omega
        · have hieq : i = (b - 1) * (n - 1) / 5 := by omega
          subst hieq
          have hmod := Nat.div_add_mod ((b - 1) * (n - 1)) 5
          omega
      · have h5 : 5 * ((b - 1) * (n - 1) / 5 + 1) ≤ 5 * i := by omega
        have hmod := Nat.div_add_mod ((b - 1) * (n - 1)) 5
        have hmlt : (b - 1) * (n - 1) % 5 < 5 := Nat.mod_lt _ (by omega)
        omega
    have ehigh : 5 * i ≤ b * (n - 1) ↔ i < b * (n - 1) / 5 + 1 := by
      rw [Nat.lt_succ_iff, Nat.le_div_iff_mul_le (by omega : 0 < 5)]
      omega
    rcases Nat.eq_zero_or_pos i with rfl | hipos
    · have hq1 : qcutBucket n 1 = 1 := rfl
      simp only [Nat.add_zero, hq1]
      constructor
      · intro h
        omega
      · rintro ⟨hlo, -⟩
        omega
    · have hni : ¬ (1 + i ≤ 1) := by omega
      unfold qcutBucket
      rw [if_neg hni]
      have he : 5 * (1 + i - 1) + (n - 2) = 5 * i + (n - 2) := by omega
      rw [he, nat_div_eq_iff hd]
      rw [← elow, ← ehigh] at *
      constructor
      · rintro ⟨hA, hB⟩
        constructor <;> omega
      · rintro ⟨hA, hB⟩
        constructor <;> omega
  rw [hcg, countP_range_interval]
  have hmono : (b - 1) * (n - 1) ≤ b * (n - 1) := Nat.mul_le_mul_right _ (by omega)
  have hmonod := @Nat.div_le_div_right _ _ 5 hmono
  have hhi : b * (n - 1) / 5 + 1 ≤ n := by
    have hb5' : b * (n - 1) ≤ 5 * (n - 1) := Nat.mul_le_mul_right _ hb5
    have := @Nat.div_le_div_right _ _ 5 hb5'
    rw [Nat.mul_div_cancel_left (n - 1) (by omega : 0 < 5)] at this
    omega
  omega

theorem countP_bucket_balance {n : ℕ} (hn : 2 ≤ n) (b1 b2 : ℕ)
    (h11 : 1 ≤ b1) (h15 : b1 ≤ 5) (h21 : 1 ≤ b2) (h25 : b2 ≤ 5) :
    (List.range n).countP (fun i => qcutBucket n (1 + i) == b1) ≤
      (List.range n).countP (fun i => qcutBucket n (1 + i) == b2) + 1 := by
  have hc1 := countP_qcutBucket_one hn
  have hc2 := countP_qcutBucket_ge_two hn 2 (by omega) (by omega)
  have hc3 := countP_qcutBucket_ge_two hn 3 (by omega) (by omega)
  have hc4 := countP_qcutBucket_ge_two hn 4 (by omega) (by omega)
  have hc5 := countP_qcutBucket_ge_two hn 5 (by omega) (by omega)
  interval_cases b1 <;> interval_cases b2 <;>
    simp only [hc1, hc2, hc3, hc4, hc5] <;> omega

/-- C3: on any population for which the quantile scoring runs (qcut succeeds
exactly on populations of at least two), the five quantile buckets in each
RFM dimension, formed over method-first ranks (ties broken by original row
order, not by value), differ in size by at most one member, and every
assigned score is an integer between 1 and 5.  The frequency and monetary
dimensions use the ascending labels (fScoreList?), the recency dimension the
descending labels (rScoreList?). -/
theorem rfm_scores_in_range_and_balanced {α : Type} [LinearOrder α]
    (xs : List α) (scores : List ℕ)
    (h : fScoreList? xs = some scores ∨ rScoreList? xs = some scores) :
    (∀ s ∈ scores, 1 ≤ s ∧ s ≤ 5) ∧
    (∀ b1 b2 : ℕ, 1 ≤ b1 → b1 ≤ 5 → 1 ≤ b2 → b2 ≤ 5 →
      scores.count b1 ≤ scores.count b2 + 1) := by
  have hn : 2 ≤ xs.length := by
    rcases h with h | h
    · unfold fScoreList? at h
      by_contra hc
      rw [if_neg hc] at h
      exact Option.noConfusion h
    · unfold rScoreList? at h
      by_contra hc
      rw [if_neg hc] at h
      exact Option.noConfusion h
  have hrank : ∀ r ∈ rankFirst xs, 1 ≤ r ∧ r ≤ xs.length := by
    intro r hr
    have := ((rankFirst_perm xs).mem_iff).mp hr
    rw [List.mem_range'] at this
    obtain ⟨i, hi, rfl⟩ := this
    omega
  rcases h with h | h
  · have hs : scores = fScoreList xs := by
      unfold fScoreList? at h
      rw [if_pos hn] at h
      exact (Option.some.inj h).symm
    subst hs
    constructor
    · intro s hsm
      obtain ⟨r, hrm, rfl⟩ := List.mem_map.mp hsm
      obtain ⟨hr1, hr2⟩ := hrank r hrm
      exact qcutBucket_bounds hn hr1 hr2
    · intro b1 b2 h11 h15 h21 h25
      rw [fScoreList, count_scoreList, count_scoreList]
      exact countP_bucket_balance hn b1 b2 h11 h15 h21 h25
  · have hs : scores = rScoreList xs := by
      unfold rScoreList? at h
      rw [if_pos hn] at h
      exact (Option.some.inj h).symm
    subst hs
    have hflip : ∀ b : ℕ, 1 ≤ b → b ≤ 5 →
        (rScoreList xs).count b =
          (List.range xs.length).countP
            (fun i => qcutBucket xs.length (1 + i) == 6 - b) := by
      intro b hb1 hb5
      rw [rScoreList, count_scoreList]
      apply List.countP_congr
      intro i hi
      have hin : i < xs.length := List.mem_range.mp hi
      obtain ⟨hq1, hq5⟩ := qcutBucket_bounds hn (by omega : 1 ≤ 1 + i) (by omega)
      simp only [beq_iff_eq]
      omega
    constructor
    · intro s hsm
      obtain ⟨r, hrm, rfl⟩ := List.mem_map.mp hsm
      obtain ⟨hr1, hr2⟩ := hrank r hrm
      obtain ⟨hq1, hq5⟩ := qcutBucket_bounds hn hr1 hr2
      omega
    · intro b1 b2 h11 h15 h21 h25
      rw [hflip b1 h11 h15, hflip b2 h21 h25]
      exact countP_bucket_balance hn (6 - b1) (6 - b2)
        (by omega) (by omega) (by omega) (by omega)

/-- C3 witness: scoring a concrete six-member population. -/
theorem rfm_scores_in_range_and_balanced_witness :
    (∀ s ∈ fScoreList ([3, 1, 4, 1, 5, 9] : List ℤ), 1 ≤ s ∧ s ≤ 5) ∧
    (fScoreList ([3, 1, 4, 1, 5, 9] : List ℤ)).count 1 ≤
      (fScoreList ([3, 1, 4, 1, 5, 9] : List ℤ)).count 5 + 1 := by
  have h := rfm_scores_in_range_and_balanced ([3, 1, 4, 1, 5, 9] : List ℤ)
    (fScoreList ([3, 1, 4, 1, 5, 9] : List ℤ)) (Or.inl (by decide))
  exact ⟨h.1, h.2 1 5 (by decide) (by decide) (by decide) (by decide)⟩

/-- The analysis date of the RFM step: the maximum transaction timestamp of
the whole dataset, never the current real-world date. -/
def analysisDate (df : List Transaction) : ℕ :=
  ((df.map (fun t => t.invoiceDate)).max?).getD 0

/-- Recency in whole days of every aggregate row, in aggregate row order. -/
def recencyDaysList (df : List Transaction) : List ℕ :=
  (customerOrders df).map (fun r => daysBetween (analysisDate df) r.lastPurchase)

/-- The R scores of the aggregate rows as the source computes them: qcut with
descending labels over the method-first ranks of the recency values. -/
def rScoresOfDf (df : List Transaction) : Option (List ℕ) :=
  rScoreList? (recencyDaysList df)

theorem rankFirst_getElem_one {α : Type} [LinearOrder α] (xs : List α) (i : ℕ) (v : α)
    (hv : xs[i]? = some v)
    (hmin : ∀ (j : ℕ) (w : α), xs[j]? = some w → v ≤ w)
    (hfirst : ∀ (j : ℕ) (w : α), j < i → xs[j]? = some w → w ≠ v) :
    (rankFirst xs)[i]? = some 1 := by
  have henum : xs.enum[i]? = some (i, v) := by
    rw [List.enum_eq_enumFrom, List.getElem?_enumFrom, hv]
    simp
  have hzero : (xs.enum.countP (fun q => decide (keyLt q (i, v)))) = 0 := by
    rw [List.countP_eq_zero]
    intro q hq
    simp only [decide_eq_true_eq]
    intro hkey
    have hq2 : xs[q.1]? = some q.2 := List.mem_enum_iff_getElem?.mp hq
    rcases hkey with hlt | ⟨heq, hidx⟩
    · exact absurd (hmin q.1 q.2 hq2) (not_le_of_lt hlt)
    · exact (hfirst q.1 q.2 hidx hq2) heq
  have hrank : rankOf xs.enum (i, v) = 1 := by
    unfold rankOf
    rw [hzero]
  show (xs.enum.map (rankOf xs.enum))[i]? = some 1
  rw [List.getElem?_map, henum]
  show some (rankOf xs.enum (i, v)) = some 1
  rw [hrank]

/-- C4 amended: the analysis date is the maximum transaction timestamp of the
whole dataset; each recency is analysis date minus last purchase in whole
days, so every customer whose last purchase equals the analysis date has
recency 0; and the earliest aggregate row holding the minimal recency value
receives Recency score 5 whenever scoring runs.  (The original claim that
every customer whose only transaction sits at the maximum timestamp scores 5
fails when several rows tie: ties are broken by row order and later tied rows
can overflow into lower buckets; see the counterexample.) -/
theorem analysis_date_and_recency (df : List Transaction) (hdf : df ≠ []) :
    (analysisDate df ∈ df.map (fun t => t.invoiceDate) ∧
      ∀ t ∈ df, t.invoiceDate ≤ analysisDate df) ∧
    (recencyDaysList df = (customerOrders df).map
      (fun r => (analysisDate df - r.lastPurchase) / minutesPerDay)) ∧
    (∀ row ∈ customerOrders df, row.lastPurchase = analysisDate df →
      daysBetween (analysisDate df) row.lastPurchase = 0) ∧
    (∀ (i v : ℕ), (recencyDaysList df)[i]? = some v →
      (∀ (j w : ℕ), (recencyDaysList df)[j]? = some w → v ≤ w) →
      (∀ (j w : ℕ), j < i → (recencyDaysList df)[j]? = some w → w ≠ v) →
      ∀ scores : List ℕ, rScoresOfDf df = some scores → scores[i]? = some 5) := by
  refine ⟨?_, rfl, ?_, ?_⟩
  · have hne : df.map (fun t => t.invoiceDate) ≠ [] := by simpa using hdf
    obtain ⟨hmem, hle⟩ := max_getD_spec hne
    exact ⟨hmem, fun t ht => hle _ (List.mem_map_of_mem _ ht)⟩
  · intro row hrow hlast
    rw [hlast]
    unfold daysBetween
    simp
  · intro i v hv hmin hfirst scores hscores
    unfold rScoresOfDf rScoreList? at hscores
    rcases Nat.lt_or_ge (recencyDaysList df).length 2 with hlt | hge
    · rw [if_neg (by omega)] at hscores
      exact Option.noConfusion hscores
    · rw [if_pos hge] at hscores
      have hrank := rankFirst_getElem_one (recencyDaysList df) i v hv hmin hfirst
      have hseq : scores = rScoreList (recencyDaysList df) := (Option.some.inj hscores).symm
      subst hseq
      rw [rScoreList, List.getElem?_map, hrank]
      rfl

/-- C4 witness: a two-customer dataset in which the second aggregate row holds
the minimal recency and indeed receives Recency score 5. -/
theorem analysis_date_and_recency_witness :
    (rScoresOfDf [⟨1, "a", 1, 0⟩, ⟨2, "b", 1, 1440⟩]).bind (fun l => l[1]?) = some 5 := by
  have h := (analysis_date_and_recency [⟨1, "a", 1, 0⟩, ⟨2, "b", 1, 1440⟩] (by decide)).2.2.2
  have hs : rScoresOfDf [⟨1, "a", 1, 0⟩, ⟨2, "b", 1, 1440⟩] = some [1, 5] := by decide
  have h5 := h 1 0 (by decide)
    (fun j w hw => Nat.zero_le w)
    (fun j w hj hw => by
      have hj0 : j = 0 := by omega
      subst hj0
      have h0 : (recencyDaysList [⟨1, "a", 1, 0⟩, ⟨2, "b", 1, 1440⟩])[0]? = some 1 := by
        decide
      rw [h0] at hw
      have hw1 : w = 1 := Option.some.inj hw.symm
      omega)
    [1, 5] hs
  rw [hs]
  exact h5

/-- Ten single-transaction customers, the first three all at the dataset
maximum timestamp. -/
def recencyTieExample : List Transaction :=
  [⟨1, "a", 1, 14400⟩, ⟨2, "b", 1, 14400⟩, ⟨3, "c", 1, 14400⟩,
   ⟨4, "d", 1, 0⟩, ⟨5, "e", 1, 1440⟩, ⟨6, "f", 1, 2880⟩, ⟨7, "g", 1, 4320⟩,
   ⟨8, "h", 1, 5760⟩, ⟨9, "i", 1, 7200⟩, ⟨10, "j", 1, 8640⟩]

/-- C4 counterexample: customer 3 has a single transaction exactly at the
dataset maximum timestamp, yet its Recency score is 4, not 5: three rows tie
at recency 0, the first quantile bucket of a ten-member population holds only
two rows, and ties are broken by row order, so the third tied row overflows
into the second bucket. -/
theorem recency_score_tie_counterexample :
    ((customerOrders recencyTieExample).map (fun r => r.customerId))[2]? = some 3 ∧
    (∀ t ∈ recencyTieExample, t.customerId = 3 →
      t.invoiceDate = analysisDate recencyTieExample) ∧
    (∃ t ∈ recencyTieExample, t.customerId = 3) ∧
    (rScoresOfDf recencyTieExample).bind (fun l => l[2]?) = some 4 := by decide

/-- C8 counterexample: a three-customer population is scored silently by the
unchanged five-bucket scheme, leaving buckets 2 and 4 empty — neither a
documented reduced-bucket behavior nor an error with a clear message — and a
one-customer population fails outright (in pandas, with a duplicate-bin-edges
message that does not mention the population size). -/
theorem small_population_counterexample :
    fScoreList? ([10, 20, 30] : List ℤ) = some [1, 3, 5] ∧
    (fScoreList ([10, 20, 30] : List ℤ)).count 2 = 0 ∧
    (fScoreList ([10, 20, 30] : List ℤ)).count 4 = 0 ∧
    fScoreList? ([42] : List ℤ) = none := by decide

/-- C8 amended: populations below five members are not explicitly handled:
scoring silently succeeds with the unchanged five-bucket scheme for every
population of at least two members (possibly leaving buckets empty), and
fails exactly on populations of fewer than two members, where the quantile
bin edges collapse. -/
theorem small_population_behavior {α : Type} [LinearOrder α] (xs : List α) :
    (fScoreList? xs = none ↔ xs.length < 2) ∧
    (rScoreList? xs = none ↔ xs.length < 2) ∧
    (2 ≤ xs.length → fScoreList? xs = some (fScoreList xs)) ∧
    (2 ≤ xs.length → rScoreList? xs = some (rScoreList xs)) := by
  refine ⟨?_, ?_, ?_, ?_⟩
  · unfold fScoreList?
    split_ifs with h
    · simp
      omega
    · simp
      omega
  · unfold rScoreList?
    split_ifs with h
    · simp
      omega
    · simp
      omega
  · intro h
    unfold fScoreList?
    rw [if_pos h]
  · intro h
    unfold rScoreList?
    rw [if_pos h]

/-- C8 witness: the degenerate behavior at concrete small populations. -/
theorem small_population_behavior_witness :
    fScoreList? ([7, 8] : List ℤ) = some (fScoreList ([7, 8] : List ℤ)) :=
  (small_population_behavior ([7, 8] : List ℤ)).2.2.1 (by decide)

/-- First purchase timestamp of a customer, as the monthly-trend step of the
source computes it: the minimum InvoiceDate of that customer. -/
def firstPurchaseDate (df : List Transaction) (c : ℕ) : ℕ :=
  ((txnsOf df c).map (fun t => t.invoiceDate)).min?.getD 0

/-- Buyer type of one transaction in the monthly-trend step: New if its
timestamp equals the customer first-purchase timestamp exactly, else
Repeat. -/
def buyerTypeOf (df : List Transaction) (t : Transaction) : String :=
  if t.invoiceDate = firstPurchaseDate df t.customerId then "New Customer"
  else "Repeat Customer"

/-- Customer 7 with two invoices recorded at the identical timestamp. -/
def sameTimeExample : List Transaction :=
  [⟨7, "A", 10, 500⟩, ⟨7, "B", 5, 500⟩]

/-- C9: a transaction is typed New exactly when its timestamp equals the
minimum timestamp of its customer (and Repeat otherwise), so both
transactions of a customer whose two invoices share the identical minimal
timestamp are typed New. -/
theorem buyer_type_first_purchase :
    (∀ (df : List Transaction) (t : Transaction), t ∈ df →
      ((buyerTypeOf df t = "New Customer" ↔
        ∀ u ∈ df, u.customerId = t.customerId → t.invoiceDate ≤ u.invoiceDate) ∧
      (buyerTypeOf df t ≠ "New Customer" → buyerTypeOf df t = "Repeat Customer"))) ∧
    sameTimeExample.map (buyerTypeOf sameTimeExample) =
      ["New Customer", "New Customer"] := by
  refine ⟨?_, by decide⟩
  intro df t ht
  have htx : t ∈ txnsOf df t.customerId := by
    unfold txnsOf
    rw [List.mem_filter]
    exact ⟨ht, by simp⟩
  have hdne : (txnsOf df t.customerId).map (fun u => u.invoiceDate) ≠ [] := by
    intro hnil
    rw [List.map_eq_nil_iff] at hnil
    rw [hnil] at htx
    simp at htx
  obtain ⟨hminmem, hminle⟩ := min_getD_spec hdne
  constructor
  · constructor
    · intro hnew u hu hcu
      have : t.invoiceDate = firstPurchaseDate df t.customerId := by
        by_contra hne
        unfold buyerTypeOf at hnew
        rw [if_neg hne] at hnew
        exact absurd hnew (by decide)
      rw [this]
      have hux : u ∈ txnsOf df t.customerId := by
        unfold txnsOf
        rw [List.mem_filter]
        exact ⟨hu, by simpa using hcu⟩
      exact hminle _ (List.mem_map_of_mem _ hux)
    · intro hall
      have hle1 : t.invoiceDate ≤ firstPurchaseDate df t.customerId := by
        obtain ⟨u, hu, hude⟩ := List.mem_map.mp hminmem
        have hu2 := List.mem_filter.mp hu
        have hmain := hall u hu2.1 (by simpa using hu2.2)
        show t.invoiceDate ≤
          ((txnsOf df t.customerId).map (fun u => u.invoiceDate)).min?.getD 0
        rw [← hude]
        exact hmain
      have hle2 : firstPurchaseDate df t.customerId ≤ t.invoiceDate :=
        hminle _ (List.mem_map_of_mem _ htx)
      unfold buyerTypeOf
      rw [if_pos (Nat.le_antisymm hle2 hle1).symm]
  · intro hne
    unfold buyerTypeOf at hne ⊢
    split_ifs at hne ⊢ with h
    · exact absurd rfl hne
    · rfl

/-- C9 witness: the characterization applied to the first transaction of the
identical-timestamp customer. -/
theorem buyer_type_first_purchase_witness :
    buyerTypeOf sameTimeExample ⟨7, "A", 10, 500⟩ = "New Customer" :=
  ((buyer_type_first_purchase.1 sameTimeExample ⟨7, "A", 10, 500⟩ (by decide)).1).mpr
    (by decide)

/-- Customer lifetime in whole days, as the source computes it from the
aggregate row. -/
def customerLifetimeDays (r : CustomerAggregate) : ℕ :=
  daysBetween r.lastPurchase r.firstPurchase

/-- The repeat-customer selection the source applies before computing the
purchase frequency: rows with more than one order. -/
def repeatCustomers (df : List Transaction) : List CustomerAggregate :=
  (customerOrders df).filter (fun r => 1 < r.orderCount)

/-- Round half to even at integer precision, as numpy rounding behaves. -/
def roundHalfToEven (x : ℚ) : ℤ :=
  if x - ⌊x⌋ < 1 / 2 then ⌊x⌋
  else if 1 / 2 < x - ⌊x⌋ then ⌊x⌋ + 1
  else if ⌊x⌋ % 2 = 0 then ⌊x⌋ else ⌊x⌋ + 1

/-- Rounding to two decimal places, as the source applies to the frequency. -/
def round2 (x : ℚ) : ℚ := (roundHalfToEven (x * 100) : ℚ) / 100

/-- Purchase frequency in days per order, computed on the filtered repeat
customers: lifetime days divided by order count minus one, rounded to two
decimals. -/
def purchaseFrequencyDaysPerOrder (r : CustomerAggregate) : ℚ :=
  round2 ((customerLifetimeDays r : ℚ) / ((r.orderCount : ℚ) - 1))

/-- C10: the purchase-frequency division runs only over customers pre-filtered
to more than one order, so the divisor (order count minus one) is at least
one and never zero; and a repeat customer whose transactions all carry one
timestamp gets frequency 0, not an error. -/
theorem purchase_frequency_never_divides_by_zero :
    (∀ (df : List Transaction), ∀ r ∈ repeatCustomers df,
      2 ≤ r.orderCount ∧ (1 : ℚ) ≤ (r.orderCount : ℚ) - 1 ∧
        ((r.orderCount : ℚ) - 1) ≠ 0) ∧
    (∀ r : CustomerAggregate, r.firstPurchase = r.lastPurchase →
      purchaseFrequencyDaysPerOrder r = 0) ∧
    (aggregateFor sameTimeExample 7 ∈ repeatCustomers sameTimeExample ∧
      purchaseFrequencyDaysPerOrder (aggregateFor sameTimeExample 7) = 0) := by
  have hzero : ∀ r : CustomerAggregate, r.firstPurchase = r.lastPurchase →
      purchaseFrequencyDaysPerOrder r = 0 := by
    intro r heq
    unfold purchaseFrequencyDaysPerOrder customerLifetimeDays daysBetween
    rw [heq, Nat.sub_self]
    show round2 ((((0 : ℕ) / minutesPerDay : ℕ) : ℚ) / ((r.orderCount : ℚ) - 1)) = 0
    rw [Nat.zero_div]
    show round2 (0 / ((r.orderCount : ℚ) - 1)) = 0
    rw [zero_div]
    unfold round2 roundHalfToEven
    norm_num
  have hmemr : aggregateFor sameTimeExample 7 ∈ repeatCustomers sameTimeExample := by
    rw [repeatCustomers, List.mem_filter]
    constructor
    · have h7 : (7 : ℕ) ∈ customerIds sameTimeExample := by decide
      exact List.mem_map_of_mem _ h7
    · decide
  refine ⟨?_, hzero, hmemr, hzero _ (by decide)⟩
  intro df r hr
  have hc := (List.mem_filter.mp hr).2
  have h2 : 2 ≤ r.orderCount := by
    simpa using hc
  refine ⟨h2, ?_, ?_⟩
  · have : (2 : ℚ) ≤ (r.orderCount : ℚ) := by exact_mod_cast h2
    linarith
  · have : (2 : ℚ) ≤ (r.orderCount : ℚ) := by exact_mod_cast h2
    intro h0
    have h1 : (r.orderCount : ℚ) = 1 := by linarith
    have h21 : (2 : ℚ) ≤ 1 := by linarith
    norm_num at h21

/-- C10 witness: the divisor bound applied to the concrete repeat customer. -/
theorem purchase_frequency_never_divides_by_zero_witness :
    2 ≤ (aggregateFor sameTimeExample 7).orderCount :=
  (purchase_frequency_never_divides_by_zero.1 sameTimeExample
    (aggregateFor sameTimeExample 7)
    (by
      rw [repeatCustomers, List.mem_filter]
      exact ⟨List.mem_map_of_mem _
        (by decide : (7 : ℕ) ∈ customerIds sameTimeExample), by decide⟩)).1

end Ecom
